import Mathlib

/-!
Verification development for `get-rules` (src/cli.js): the recursive
tree-synchronization engine `downloadDirectory` (cli.js lines 112-176),
the file fetch helper `downloadFile` (lines 80-109), and the coordinate /
exit-code behaviour of `main` (lines 178-292).

Modelling conventions:
* Filesystem paths are segment lists (`Path := List String`); `path.join(dir,
  name)` with a slash-free `name` is `dir ++ [name]`.  GitHub entry names are
  slash-free, so this is faithful to the string paths the program builds.
* The remote GitHub contents API is modelled as an inductive tree: a listing
  request either fails in transport / JSON parsing (`Listing.fail`, the
  rejection of `httpsGetJson`), parses to a non-array value
  (`Listing.notArray`), or yields the ordered item list.  Each item carries
  the fields `cli.js` reads: `name`, `type`, the dereferenced `url` subtree,
  and `download_url` (`none` when the field is absent; `some none` when the
  content fetch fails with a non-2xx status or network error; `some (some c)`
  when it succeeds with body `c`).
* `Date.now()` is the `now` field of the state; time advances by one at each
  awaited I/O operation.
* The state carries an event trace so that ordering facts (displacement
  before download, directory creation before children) are provable.
-/

namespace GetRules

abbrev Path := List String

/-- Relocation of one path under a rename: if `src` leads `p`, replace that
leading run by `dst`; used to model `fs.renameSync` moving a subtree. -/
def reroot (src dst p : Path) : Path :=
  if src <+: p then dst ++ p.drop src.length else p

/-- Run-scoped counters of `downloadDirectory` (cli.js line 116):
`{ downloaded: 0, errors: 0, moved: 0 }`. -/
structure Stats where
  downloaded : Nat
  errors : Nat
  moved : Nat
deriving DecidableEq

/-- Observable filesystem / logging events, used to state ordering facts. -/
inductive Ev where
  | mkdirEv : Path → Ev
  | renameEv : Path → Path → Ev
  | fetchEv : Path → Ev
  | wroteEv : Path → Ev
  | failEv : Path → Ev
  | listFailEv : Path → Ev
  | badPayloadEv : Path → Ev
deriving DecidableEq

/-- Association-list lookup of a file's content by path (first match wins). -/
def lookupF : List (Path × String) → Path → Option String
  | [], _ => none
  | (q, c) :: rest, p => if q = p then some c else lookupF rest p

/-- Local filesystem model: directory markers and file contents. -/
structure FS where
  dirs : List Path
  files : List (Path × String)
deriving DecidableEq

def FS.lookupFile (fs : FS) (p : Path) : Option String :=
  lookupF fs.files p

/-- Model of `fs.existsSync`: a directory or a file is present at `p`. -/
def FS.existsSync (fs : FS) (p : Path) : Bool :=
  decide (p ∈ fs.dirs) || (fs.lookupFile p).isSome

/-- Model of `fs.mkdirSync(p, { recursive: true })`. -/
def FS.mkdir (fs : FS) (p : Path) : FS :=
  { fs with dirs := p :: fs.dirs }

/-- Model of a successful streamed write to `p` (shadowing any old entry). -/
def FS.writeFile (fs : FS) (p : Path) (c : String) : FS :=
  { fs with files := (p, c) :: fs.files }

/-- Model of `fs.unlink(p)`: remove any file entry at `p`. -/
def FS.unlink (fs : FS) (p : Path) : FS :=
  { fs with files := fs.files.filter fun e => !decide (e.1 = p) }

/-- Model of `fs.renameSync(src, dst)`: whatever is at or under `dst` is
replaced, and everything at or under `src` is relocated under `dst`. -/
def FS.rename (fs : FS) (src dst : Path) : FS :=
  { dirs := fs.dirs.map (reroot src dst),
    files := (fs.files.filter fun e => !decide (dst <+: e.1)).map
      fun e => (reroot src dst e.1, e.2) }

/-- Traversal state: filesystem, counters, clock (`Date.now()`), and the
event trace. -/
structure St where
  fs : FS
  stats : Stats
  now : Nat
  trace : List Ev
deriving DecidableEq

mutual

/-- A directory listing as `downloadDirectory` observes it: the awaited
`httpsGetJson(apiUrl)` either rejects (`fail`), resolves to a non-array JSON
value (`notArray`), or resolves to the ordered array of items. -/
inductive Listing where
  | fail : Listing
  | notArray : Listing
  | ok : Items → Listing

inductive Items where
  | nil : Items
  | cons : Item → Items → Items

/-- One element of a GitHub contents listing, with the four fields cli.js
reads: `name`, `type`, the subtree behind `url`, and `download_url`
(absent / failing fetch / successful fetch with content). -/
inductive Item where
  | mk : (name : String) → (type : String) → (url : Listing) →
      (durl : Option (Option String)) → Item

end

def Item.name : Item → String
  | .mk n _ _ _ => n

def Item.type : Item → String
  | .mk _ t _ _ => t

def Item.url : Item → Listing
  | .mk _ _ u _ => u

def Item.durl : Item → Option (Option String)
  | .mk _ _ _ d => d

/-- Model of `downloadFile(fileUrl, destinationPath)` (cli.js lines 80-109):
`fs.createWriteStream` opens `destinationPath`; on a 2xx response the body is
piped into it, on a non-2xx status or a network error the partial file is
removed with `fs.unlink`.  The result records the final filesystem and
whether the promise resolved. -/
def downloadFile (fetch : Option String) (destinationPath : Path) (fs : FS) :
    FS × Bool :=
  match fetch with
  | some content => (fs.writeFile destinationPath content, true)
  | none => (fs.unlink destinationPath, false)

mutual

/-- Model of `downloadDirectory(apiUrl, localPath, basePath, stats)`
(cli.js lines 112-176).  The boolean is `true` when the function returns
`stats` (line 175) and `false` when the non-array guard takes the early
`return;` (line 125), i.e. the promise resolves to `undefined`.  `basePath`
is used only to format log messages and is omitted. -/
def downloadDirectory (tmpDir : Path) (d : Listing) (localPath : Path)
    (st : St) : St × Bool :=
  match d with
  | .fail =>
      -- catch block, lines 169-174: report and count the listing failure
      ({ st with
          stats := { st.stats with errors := st.stats.errors + 1 },
          now := st.now + 1,
          trace := st.trace ++ [Ev.listFailEv localPath] }, true)
  | .notArray =>
      -- lines 121-126: log the malformed payload and return early;
      -- note that the error counter is NOT incremented on this path
      ({ st with
          now := st.now + 1,
          trace := st.trace ++ [Ev.badPayloadEv localPath] }, false)
  | .ok items =>
      (processItems tmpDir items localPath { st with now := st.now + 1 }, true)

/-- The `for (const item of contents)` loop, lines 128-168: strictly
sequential, in the order the provider returned. -/
def processItems (tmpDir : Path) (items : Items) (localPath : Path)
    (st : St) : St :=
  match items with
  | .nil => st
  | .cons i rest => processItems tmpDir rest localPath (processItem tmpDir i localPath st)

/-- One loop iteration, lines 129-167. -/
def processItem (tmpDir : Path) (i : Item) (localPath : Path) (st : St) : St :=
  match i with
  | .mk name ty url durl =>
    let q := localPath ++ [name]
    if ty = "dir" then
      -- lines 132-139: create the local directory if missing, then recurse
      let st1 := if st.fs.existsSync q then st
        else { st with fs := st.fs.mkdir q, trace := st.trace ++ [Ev.mkdirEv q] }
      (downloadDirectory tmpDir url q st1).1
    else if ty = "file" then
      match durl with
      | none => st   -- line 142: no download_url, the item is skipped silently
      | some fetch =>
        -- lines 143-153: displace an existing file to the temp directory
        let st2 := if st.fs.existsSync q then
            let tempFilePath := tmpDir ++ [name ++ "." ++ toString st.now]
            { st with
                fs := st.fs.rename q tempFilePath,
                stats := { st.stats with moved := st.stats.moved + 1 },
                trace := st.trace ++ [Ev.renameEv q tempFilePath] }
          else st
        -- lines 154-165: await downloadFile, then count the outcome
        match downloadFile fetch q st2.fs with
        | (fs', true) =>
            { st2 with
                fs := fs',
                stats := { st2.stats with downloaded := st2.stats.downloaded + 1 },
                now := st2.now + 1,
                trace := st2.trace ++ [Ev.fetchEv q, Ev.wroteEv q] }
        | (fs', false) =>
            { st2 with
                fs := fs',
                stats := { st2.stats with errors := st2.stats.errors + 1 },
                now := st2.now + 1,
                trace := st2.trace ++ [Ev.fetchEv q, Ev.failEv q] }
    else st   -- item.type neither "dir" nor "file": no branch taken

end

/-! Counting and well-formedness functions over remote trees.  They mirror
the traversal: a `fail` or `notArray` listing stops recursion, so nothing
below it is counted as visited. -/

mutual

/-- Number of file-typed entries the traversal visits in this subtree. -/
def visitedFiles : Listing → Nat
  | .fail => 0
  | .notArray => 0
  | .ok items => visitedFilesItems items

def visitedFilesItems : Items → Nat
  | .nil => 0
  | .cons i rest => visitedFilesItem i + visitedFilesItems rest

def visitedFilesItem : Item → Nat
  | .mk _ ty url _ =>
    if ty = "dir" then visitedFiles url
    else if ty = "file" then 1 else 0

end

mutual

/-- Number of listing calls in this subtree that reject in transport. -/
def listFails : Listing → Nat
  | .fail => 1
  | .notArray => 0
  | .ok items => listFailsItems items

def listFailsItems : Items → Nat
  | .nil => 0
  | .cons i rest => listFailsItem i + listFailsItems rest

def listFailsItem : Item → Nat
  | .mk _ ty url _ =>
    if ty = "dir" then listFails url else 0

end

mutual

/-- Number of visited file entries whose content fetch succeeds. -/
def goodFiles : Listing → Nat
  | .fail => 0
  | .notArray => 0
  | .ok items => goodFilesItems items

def goodFilesItems : Items → Nat
  | .nil => 0
  | .cons i rest => goodFilesItem i + goodFilesItems rest

def goodFilesItem : Item → Nat
  | .mk _ ty url durl =>
    if ty = "dir" then goodFiles url
    else if ty = "file" then
      match durl with
      | some (some _) => 1
      | _ => 0
    else 0

end

mutual

/-- Number of visited file entries whose content fetch fails. -/
def badFiles : Listing → Nat
  | .fail => 0
  | .notArray => 0
  | .ok items => badFilesItems items

def badFilesItems : Items → Nat
  | .nil => 0
  | .cons i rest => badFilesItem i + badFilesItems rest

def badFilesItem : Item → Nat
  | .mk _ ty url durl =>
    if ty = "dir" then badFiles url
    else if ty = "file" then
      match durl with
      | some none => 1
      | _ => 0
    else 0

end

/-- Does some item in the list carry this name? -/
def hasName : Items → String → Bool
  | .nil, _ => false
  | .cons i rest, n => decide (i.name = n) || hasName rest n

mutual

/-- Well-formedness for the scenarios of the spec's testable properties:
every reachable listing is an array, and sibling names never repeat. -/
def wfTree : Listing → Bool
  | .fail => false
  | .notArray => false
  | .ok items => wfTreeItems items

def wfTreeItems : Items → Bool
  | .nil => true
  | .cons i rest => !hasName rest i.name && wfTreeItem i && wfTreeItems rest

def wfTreeItem : Item → Bool
  | .mk _ ty url _ =>
    if ty = "dir" then wfTree url else true

end

mutual

/-- Every visited file entry carries a `download_url` whose fetch succeeds. -/
def allGood : Listing → Bool
  | .fail => true
  | .notArray => true
  | .ok items => allGoodItems items

def allGoodItems : Items → Bool
  | .nil => true
  | .cons i rest => allGoodItem i && allGoodItems rest

def allGoodItem : Item → Bool
  | .mk _ ty url durl =>
    if ty = "dir" then allGood url
    else if ty = "file" then
      match durl with
      | some (some _) => true
      | _ => false
    else true

end

mutual

/-- The subtree has a file entry at relative path `r` whose download outcome
is `oc` (`some c`: the fetch succeeds with content `c`; `none`: it fails). -/
def fileAtB : Listing → Path → Option String → Bool
  | .fail, _, _ => false
  | .notArray, _, _ => false
  | .ok items, r, oc => fileAtItemsB items r oc

def fileAtItemsB : Items → Path → Option String → Bool
  | .nil, _, _ => false
  | .cons i rest, r, oc => fileAtItemB i r oc || fileAtItemsB rest r oc

def fileAtItemB : Item → Path → Option String → Bool
  | .mk name ty url durl, r, oc =>
    if ty = "dir" then
      match r with
      | [] => false
      | n :: r2 => decide (n = name) && fileAtB url r2 oc
    else if ty = "file" then
      decide (r = [name]) &&
        match durl, oc with
        | some (some c), some c2 => decide (c = c2)
        | some none, none => true
        | _, _ => false
    else false

end

/-! Model of the argument / prompt handling and the exit code of `main`
(cli.js lines 178-292). -/

def DEFAULT_ORG : String := "johnlindquist"

def DEFAULT_REPO : String := "get-rules"

/-- Split a character list at every `'/'`, the semantics of JavaScript
`String.prototype.split("/")`. -/
def splitSlash : List Char → List (List Char)
  | [] => [[]]
  | '/' :: rest => [] :: splitSlash rest
  | c :: rest =>
    match splitSlash rest with
    | [] => [[c]]
    | g :: gs => (c :: g) :: gs

/-- The validation pattern `^[^/]+\/[^/]+$` used both for the command-line
argument (line 188) and the prompt input (line 212): exactly one slash
separating two nonempty slash-free segments. -/
def validRepoArg (s : String) : Bool :=
  match splitSlash s.data with
  | [a, b] => !a.isEmpty && !b.isEmpty
  | _ => false

/-- `userArg.split("/")` destructured as `[org, repo]` (lines 190, 220). -/
def splitCoord (s : String) : String × String :=
  match splitSlash s.data with
  | a :: b :: _ => (String.mk a, String.mk b)
  | [a] => (String.mk a, "")
  | [] => ("", "")

/-- The interactive branch, lines 203-222: `promptAnswer` is the value the
`prompts` call resolves with — its own `validate` re-asks until the text
matches `validRepoArg`, and its `initial` is `DEFAULT_ORG/DEFAULT_REPO`, so
an accepted answer is a valid coordinate (the default when the user just
accepts the initial) and `none` models cancellation.  An empty or missing
answer takes the `!response.repository` branch, `process.exit(0)`. -/
def promptFlow (promptAnswer : Option String) : Option (String × String) :=
  match promptAnswer with
  | none => none
  | some r => if r = "" then none else some (splitCoord r)

/-- Coordinate selection, lines 182-222: a valid argument is used directly;
an invalid or absent argument falls through to the interactive prompt. -/
def resolveRepo (userArg promptAnswer : Option String) :
    Option (String × String) :=
  match userArg with
  | some a =>
      if validRepoArg a then some (splitCoord a)
      else promptFlow promptAnswer
  | none => promptFlow promptAnswer

/-- Exit-code model of `main` (lines 178-292).  `mkdirRootOk` is whether
`fs.mkdirSync(absoluteDestDir)` succeeds (line 241; a throw is caught at
line 278 and exits 1).  After `downloadDirectory` resolves, the summary
reads `stats.downloaded` (line 259): when the top-level call took the
non-array early return the promise resolved to `undefined`, the property
access throws, and the catch block exits 1; otherwise `main` finishes and
the process exits 0. -/
def mainExit (tmpDir : Path) (userArg promptAnswer : Option String)
    (mkdirRootOk : Bool) (destRoot : Path) (remote : Listing) (fs0 : FS) : Nat :=
  match resolveRepo userArg promptAnswer with
  | none => 0    -- cancelled prompt: process.exit(0), line 217
  | some _ =>
    if mkdirRootOk then
      match downloadDirectory tmpDir remote destRoot
          ⟨fs0, ⟨0, 0, 0⟩, 0, []⟩ with
      | (_, true) => 0
      | (_, false) => 1
    else 1

/-- Concatenation of item lists, used to state the sequencing properties of
the traversal loop. -/
def Items.app : Items → Items → Items
  | .nil, ys => ys
  | .cons x xs, ys => .cons x (xs.app ys)

/-! Basic lemmas about the filesystem model. -/

theorem reroot_self (src dst : Path) : reroot src dst src = dst := by
  simp [reroot]

theorem reroot_of_not_pref {src dst p : Path} (h : ¬ src <+: p) :
    reroot src dst p = p := by
  simp [reroot, h]

theorem lookupF_filterne_self (l : List (Path × String)) (p : Path) :
    lookupF (l.filter fun e => !decide (e.1 = p)) p = none := by
  induction l with
  | nil => simp [lookupF]
  | cons a rest ih =>
    by_cases hq : a.1 = p
    · rw [List.filter_cons_of_neg (by simp [hq])]; exact ih
    · rw [List.filter_cons_of_pos (by simp [hq])]
      obtain ⟨q, c⟩ := a
      simpa [lookupF, hq] using ih

theorem lookupF_filterne_other (l : List (Path × String)) {p q : Path}
    (h : q ≠ p) : lookupF (l.filter fun e => !decide (e.1 = p)) q = lookupF l q := by
  induction l with
  | nil => simp
  | cons a rest ih =>
    by_cases hq : a.1 = p
    · rw [List.filter_cons_of_neg (by simp [hq])]
      obtain ⟨a1, c⟩ := a
      have : a1 ≠ q := by rintro rfl; exact (h hq).elim
      simpa [lookupF, this] using ih
    · rw [List.filter_cons_of_pos (by simp [hq])]
      obtain ⟨a1, c⟩ := a
      by_cases ha : a1 = q
      · simp [lookupF, ha]
      · simpa [lookupF, ha] using ih

theorem FS.lookupFile_mkdir (fs : FS) (p q : Path) :
    (fs.mkdir p).lookupFile q = fs.lookupFile q := rfl

theorem FS.lookupFile_writeFile_self (fs : FS) (p : Path) (c : String) :
    (fs.writeFile p c).lookupFile p = some c := by
  simp [FS.writeFile, FS.lookupFile, lookupF]

theorem FS.lookupFile_writeFile_ne (fs : FS) {p q : Path} (c : String)
    (h : q ≠ p) : (fs.writeFile p c).lookupFile q = fs.lookupFile q := by
  have : p ≠ q := fun e => h e.symm
  simp [FS.writeFile, FS.lookupFile, lookupF, this]

theorem FS.lookupFile_unlink_self (fs : FS) (p : Path) :
    (fs.unlink p).lookupFile p = none :=
  lookupF_filterne_self fs.files p

theorem FS.lookupFile_unlink_ne (fs : FS) {p q : Path} (h : q ≠ p) :
    (fs.unlink p).lookupFile q = fs.lookupFile q :=
  lookupF_filterne_other fs.files h

theorem reroot_ne_dst {src dst q : Path} (hq : ¬ dst <+: q) (hqs : q ≠ src) :
    reroot src dst q ≠ dst := by
  unfold reroot
  by_cases hpre : src <+: q
  · simp only [hpre, if_pos]
    obtain ⟨t, rfl⟩ := hpre
    have ht : t ≠ [] := by rintro rfl; simp at hqs
    rw [List.drop_left]
    cases t with
    | nil => exact (ht rfl).elim
    | cons x xs => simp
  · simp only [hpre, if_neg, not_false_iff]
    rintro rfl
    exact hq List.prefix_rfl

theorem reroot_ne_of_not_pref {src dst q r : Path}
    (hdst : ¬ dst <+: r) : reroot src dst q = r → q = r := by
  unfold reroot
  by_cases hpre : src <+: q
  · simp only [hpre, if_pos]
    intro h
    exact absurd (h ▸ List.prefix_append dst _) hdst
  · simp [hpre]

theorem rename_list_lookup_dst (l : List (Path × String)) {src dst : Path}
    (h : ¬ dst <+: src) :
    lookupF ((l.filter fun e => !decide (dst <+: e.1)).map
      fun e => (reroot src dst e.1, e.2)) dst = lookupF l src := by
  induction l with
  | nil => simp [lookupF]
  | cons a rest ih =>
    obtain ⟨q, c⟩ := a
    by_cases hq : dst <+: q
    · rw [List.filter_cons_of_neg (by simp [hq])]
      have hqs : q ≠ src := by rintro rfl; exact h hq
      simpa [lookupF, hqs] using ih
    · rw [List.filter_cons_of_pos (by simp [hq])]
      by_cases hqsrc : q = src
      · subst hqsrc
        simp [lookupF, reroot_self]
      · have hne := reroot_ne_dst hq hqsrc
        simp only [List.map_cons, lookupF, hne, if_neg, hqsrc]
        exact ih

theorem FS.rename_lookupFile_dst (fs : FS) {src dst : Path}
    (h : ¬ dst <+: src) : (fs.rename src dst).lookupFile dst = fs.lookupFile src :=
  rename_list_lookup_dst fs.files h

theorem rename_list_lookup_other (l : List (Path × String)) {src dst q : Path}
    (h1 : ¬ src <+: q) (h2 : ¬ dst <+: q) :
    lookupF ((l.filter fun e => !decide (dst <+: e.1)).map
      fun e => (reroot src dst e.1, e.2)) q = lookupF l q := by
  induction l with
  | nil => simp [lookupF]
  | cons a rest ih =>
    obtain ⟨a1, c⟩ := a
    by_cases hq : dst <+: a1
    · rw [List.filter_cons_of_neg (by simp [hq])]
      have : a1 ≠ q := by rintro rfl; exact h2 hq
      simpa [lookupF, this] using ih
    · rw [List.filter_cons_of_pos (by simp [hq])]
      by_cases ha : reroot src dst a1 = q
      · have := reroot_ne_of_not_pref h2 ha
        subst this
        simp [lookupF, ha]
      · have haq : a1 ≠ q := by
          rintro rfl
          exact ha (reroot_of_not_pref h1)
        simp only [List.map_cons, lookupF, ha, if_neg, haq]
        exact ih

theorem FS.rename_lookupFile_other (fs : FS) {src dst q : Path}
    (h1 : ¬ src <+: q) (h2 : ¬ dst <+: q) :
    (fs.rename src dst).lookupFile q = fs.lookupFile q :=
  rename_list_lookup_other fs.files h1 h2

theorem FS.existsSync_of_lookupFile {fs : FS} {p : Path} {c : String}
    (h : fs.lookupFile p = some c) : fs.existsSync p = true := by
  simp [FS.existsSync, h]

/-! Claim C9: entries of unknown type, and file entries with no
`download_url`, are silently skipped. -/

/-- C9: for every listed entry whose `type` is neither `"dir"` nor `"file"`,
and for every `"file"` entry carrying no `download_url`, processing the entry
is a complete no-op: the local filesystem, all three counters, the clock and
the trace are left exactly as they were. -/
theorem claim_C9_skipped_entries_are_noops (tmpDir localPath : Path) (i : Item)
    (st : St)
    (h : (i.type ≠ "dir" ∧ i.type ≠ "file") ∨ (i.type = "file" ∧ i.durl = none)) :
    processItem tmpDir i localPath st = st := by
  obtain ⟨name, ty, url, durl⟩ := i
  simp only [Item.type, Item.durl] at h
  rcases h with ⟨h1, h2⟩ | ⟨h1, h2⟩
  · simp [processItem, h1, h2]
  · subst h1 h2
    simp [processItem]

/-- Witness for C9 at a concrete symlink-typed entry. -/
theorem claim_C9_witness :
    processItem ["tmp"] (.mk "x" "symlink" .fail none) ["dest"]
      ⟨⟨[], []⟩, ⟨0, 0, 0⟩, 0, []⟩ = ⟨⟨[], []⟩, ⟨0, 0, 0⟩, 0, []⟩ :=
  claim_C9_skipped_entries_are_noops ["tmp"] ["dest"] _ _
    (Or.inl (by constructor <;> decide))

/-! Claim C4: handling of an invalid repository-coordinate argument. -/

/-- C4 counterexample: with the invalid argument `bareword`, the program does
not proceed with the default coordinate — it enters interactive mode, and a
user who types `foo/bar` at the prompt makes the run proceed with `foo/bar`,
not with `johnlindquist/get-rules`. -/
theorem claim_C4_counterexample :
    resolveRepo (some "bareword") (some "foo/bar") = some ("foo", "bar") ∧
    ("foo", "bar") ≠ (DEFAULT_ORG, DEFAULT_REPO) := by
  constructor
  · rfl
  · decide

/-- C4 amended: an invocation whose repository-coordinate argument does not
match `segment/segment` does not fail: after a warning it falls back to the
interactive prompt (whose initial value is the configured default
`johnlindquist/get-rules`); accepting that initial proceeds with the default
coordinate, and cancelling the prompt ends the run with exit code 0. -/
theorem claim_C4_amended :
    (∀ a, validRepoArg a = false →
      ∀ ans, resolveRepo (some a) ans = promptFlow ans) ∧
    (∀ a, validRepoArg a = false →
      resolveRepo (some a) (some "johnlindquist/get-rules") =
        some (DEFAULT_ORG, DEFAULT_REPO)) ∧
    (∀ a, validRepoArg a = false → resolveRepo (some a) none = none) := by
  refine ⟨fun a h ans => ?_, fun a h => ?_, fun a h => ?_⟩
  · simp [resolveRepo, h]
  · simp only [resolveRepo, h, Bool.false_eq_true, if_false]
    rfl
  · simp [resolveRepo, h, promptFlow]

/-- Witness for C4 amended at the concrete invalid argument `bareword`. -/
theorem claim_C4_witness :
    resolveRepo (some "bareword") (some "johnlindquist/get-rules") =
      some (DEFAULT_ORG, DEFAULT_REPO) :=
  claim_C4_amended.2.1 "bareword" (by rfl)

/-! Claim C2: a directory whose listing parses to a non-array payload. -/

/-- C2 counterexample: a top-level listing with a malformed subdirectory
(`bad`, whose listing is a JSON object) and one healthy sibling file ends the
run with `downloaded = 1` but `errors = 0` — the non-array guard takes the
early `return;` at cli.js line 125 without ever incrementing the error
counter, so the claimed increment does not happen. -/
theorem claim_C2_counterexample :
    (downloadDirectory ["tmp"]
      (.ok (.cons (.mk "bad" "dir" .notArray none)
        (.cons (.mk "f.txt" "file" .fail (some (some "X"))) .nil)))
      ["dest"] ⟨⟨[], []⟩, ⟨0, 0, 0⟩, 0, []⟩).1.stats = ⟨1, 0, 0⟩ := by
  rfl

/-- C2 amended: a directory whose listing response is not an array is
rejected at that directory's scope: the malformed payload is reported, the
subtree contributes zero downloads and zero filesystem changes and its
traversal stops there, and sibling subtrees are unaffected — but the error
counter is NOT incremented (the guard's early return bypasses the catch
block), and the call resolves to `undefined` rather than the stats object. -/
theorem claim_C2_amended :
    (∀ tmpDir p st,
      (downloadDirectory tmpDir .notArray p st).1.stats = st.stats ∧
      (downloadDirectory tmpDir .notArray p st).1.fs = st.fs ∧
      (downloadDirectory tmpDir .notArray p st).2 = false) ∧
    (∀ tmpDir p st name durl,
      (processItem tmpDir (.mk name "dir" .notArray durl) p st).stats = st.stats) := by
  constructor
  · intro tmpDir p st
    refine ⟨rfl, rfl, rfl⟩
  · intro tmpDir p st name durl
    by_cases h : st.fs.existsSync (p ++ [name])
    · simp [processItem, h, downloadDirectory]
    · simp [processItem, h, downloadDirectory]

/-! Claim C3: the process exit contract. -/

/-- C3 counterexample: a run whose very first (top-level) listing call fails
in transport exits 0, not non-zero — the failure is caught inside
`downloadDirectory`, counted as one error, and `main` then prints the
summary and completes normally. -/
theorem claim_C3_counterexample :
    mainExit ["tmp"] (some "a/b") none true ["dest"] .fail ⟨[], []⟩ = 0 := by
  rfl

/-- C3 amended: a run that completes its traversal exits 0 for every value of
the per-item error counter — including when the very first (top-level)
listing call fails in transport, which is merely counted as one error.  A
non-zero exit occurs when the destination root cannot be created, or when
the top-level listing resolves to a non-array payload (the traversal then
resolves to `undefined` and the summary code throws). -/
theorem claim_C3_amended :
    (∀ tmpDir ua pa dest remote fs0 c, resolveRepo ua pa = some c →
      mainExit tmpDir ua pa false dest remote fs0 = 1) ∧
    (∀ tmpDir ua pa dest items fs0,
      mainExit tmpDir ua pa true dest (.ok items) fs0 = 0) ∧
    (∀ tmpDir ua pa dest fs0, mainExit tmpDir ua pa true dest .fail fs0 = 0) ∧
    (∀ tmpDir p st,
      (downloadDirectory tmpDir .fail p st).1.stats.errors = st.stats.errors + 1) ∧
    (∀ tmpDir ua pa dest fs0 c, resolveRepo ua pa = some c →
      mainExit tmpDir ua pa true dest .notArray fs0 = 1) := by
  refine ⟨fun tmpDir ua pa dest remote fs0 c h => ?_,
    fun tmpDir ua pa dest items fs0 => ?_,
    fun tmpDir ua pa dest fs0 => ?_,
    fun tmpDir p st => ?_,
    fun tmpDir ua pa dest fs0 c h => ?_⟩
  · simp [mainExit, h]
  · cases hres : resolveRepo ua pa <;> simp [mainExit, hres, downloadDirectory]
  · cases hres : resolveRepo ua pa <;> simp [mainExit, hres, downloadDirectory]
  · simp [downloadDirectory]
  · simp [mainExit, h, downloadDirectory]

/-- Witness for C3 amended: failing to create the destination root exits 1,
and a top-level non-array listing exits 1, at concrete inputs. -/
theorem claim_C3_witness :
    mainExit ["tmp"] (some "a/b") none false ["dest"] .fail ⟨[], []⟩ = 1 ∧
    mainExit ["tmp"] (some "a/b") none true ["dest"] .notArray ⟨[], []⟩ = 1 :=
  ⟨claim_C3_amended.1 _ _ _ _ _ _ ("a", "b") (by rfl),
   claim_C3_amended.2.2.2.2 _ _ _ _ _ ("a", "b") (by rfl)⟩

/-! Prefix-disjointness helpers: the destination tree and the temp directory
never alias when neither path leads the other. -/

theorem not_snoc_pref_of_disj {tmp p : Path} {x y : String}
    (h1 : ¬ tmp <+: p) (h2 : ¬ p <+: tmp) :
    ¬ (tmp ++ [x]) <+: (p ++ [y]) := by
  intro hpre
  rcases List.prefix_concat_iff.mp hpre with he | hp
  · have hp1 : p <+: tmp ++ [x] := he ▸ List.prefix_append p [y]
    have hp2 : tmp <+: tmp ++ [x] := List.prefix_append tmp [x]
    rcases List.prefix_or_prefix_of_prefix hp2 hp1 with h | h
    · exact h1 h
    · exact h2 h
  · exact h1 ((List.prefix_append tmp [x]).trans hp)

theorem disj_child {tmp p : Path} (n : String)
    (h1 : ¬ tmp <+: p) (h2 : ¬ p <+: tmp) :
    ¬ tmp <+: (p ++ [n]) ∧ ¬ (p ++ [n]) <+: tmp := by
  constructor
  · intro hpre
    rcases List.prefix_concat_iff.mp hpre with he | hp
    · exact h2 (he ▸ List.prefix_append p [n])
    · exact h1 hp
  · intro hpre
    exact h2 ((List.prefix_append p [n]).trans hpre)

theorem not_tmp_pref_of_between {tmp p q : Path}
    (h1 : ¬ tmp <+: p) (h2 : ¬ p <+: tmp) (hq : p <+: q) : ¬ tmp <+: q := by
  intro hpre
  rcases List.prefix_or_prefix_of_prefix hpre hq with h | h
  · exact h1 h
  · exact h2 h

/-! Claim C1: displacement of an existing local file precedes its download. -/

/-- C1: when a file entry's computed local path already holds a file, the
synchronizer never overwrites it in place: it first renames the file into the
temp directory under `name.<Date.now()>` (incrementing the displaced
counter), and only afterwards starts the download — the rename event
precedes the fetch event in the trace, and the old content survives at the
temp path whatever the download's outcome. -/
theorem claim_C1_displace_before_download (tmpDir localPath : Path)
    (name : String) (url : Listing) (fetch : Option String) (st : St) (c : String)
    (hc : st.fs.lookupFile (localPath ++ [name]) = some c)
    (h1 : ¬ tmpDir <+: localPath) (h2 : ¬ localPath <+: tmpDir) :
    ∃ rest : List Ev,
      (processItem tmpDir (.mk name "file" url (some fetch)) localPath st).stats.moved
        = st.stats.moved + 1 ∧
      (processItem tmpDir (.mk name "file" url (some fetch)) localPath st).trace
        = st.trace ++ Ev.renameEv (localPath ++ [name])
            (tmpDir ++ [name ++ "." ++ toString st.now])
          :: Ev.fetchEv (localPath ++ [name]) :: rest ∧
      (processItem tmpDir (.mk name "file" url (some fetch)) localPath st).fs.lookupFile
          (tmpDir ++ [name ++ "." ++ toString st.now]) = some c := by
  have hex : st.fs.existsSync (localPath ++ [name]) = true :=
    FS.existsSync_of_lookupFile hc
  have htpq : ¬ (tmpDir ++ [name ++ "." ++ toString st.now]) <+: (localPath ++ [name]) :=
    not_snoc_pref_of_disj h1 h2
  have hqtp : ¬ (localPath ++ [name]) = (tmpDir ++ [name ++ "." ++ toString st.now]) := by
    intro e
    exact htpq (e ▸ List.prefix_rfl)
  have hren : (st.fs.rename (localPath ++ [name])
        (tmpDir ++ [name ++ "." ++ toString st.now])).lookupFile
      (tmpDir ++ [name ++ "." ++ toString st.now]) = some c := by
    rw [FS.rename_lookupFile_dst st.fs htpq]
    exact hc
  cases fetch with
  | some content =>
    refine ⟨[Ev.wroteEv (localPath ++ [name])], ?_, ?_, ?_⟩
    · simp [processItem, hex, downloadFile]
    · simp [processItem, hex, downloadFile]
    · simp only [processItem, hex, downloadFile, if_pos, if_neg, String.reduceEq,
        reduceIte]
      rw [FS.lookupFile_writeFile_ne _ _ (fun e => hqtp e.symm)]
      exact hren
  | none =>
    refine ⟨[Ev.failEv (localPath ++ [name])], ?_, ?_, ?_⟩
    · simp [processItem, hex, downloadFile]
    · simp [processItem, hex, downloadFile]
    · simp only [processItem, hex, downloadFile, if_pos, if_neg, String.reduceEq,
        reduceIte]
      rw [FS.lookupFile_unlink_ne _ (fun e => hqtp e.symm)]
      exact hren

/-- Witness for C1 at a concrete pre-existing file and a successful fetch. -/
theorem claim_C1_witness :
    ∃ rest : List Ev,
      (processItem ["tmp"] (.mk "a" "file" .fail (some (some "new"))) ["dest"]
        ⟨⟨[], [(["dest", "a"], "old")]⟩, ⟨0, 0, 0⟩, 5, []⟩).stats.moved = 0 + 1 ∧
      (processItem ["tmp"] (.mk "a" "file" .fail (some (some "new"))) ["dest"]
        ⟨⟨[], [(["dest", "a"], "old")]⟩, ⟨0, 0, 0⟩, 5, []⟩).trace
        = [] ++ Ev.renameEv ["dest", "a"] (["tmp"] ++ ["a" ++ "." ++ toString 5])
          :: Ev.fetchEv ["dest", "a"] :: rest ∧
      (processItem ["tmp"] (.mk "a" "file" .fail (some (some "new"))) ["dest"]
        ⟨⟨[], [(["dest", "a"], "old")]⟩, ⟨0, 0, 0⟩, 5, []⟩).fs.lookupFile
          (["tmp"] ++ ["a" ++ "." ++ toString 5]) = some "old" :=
  claim_C1_displace_before_download ["tmp"] ["dest"] "a" .fail (some "new")
    ⟨⟨[], [(["dest", "a"], "old")]⟩, ⟨0, 0, 0⟩, 5, []⟩ "old" (by rfl)
    (by decide) (by decide)

/-! Claim C10: a failed download deletes the partial file and does not
restore a displaced copy. -/

/-- C10: when a file's download fails (non-2xx or network error), the
partially created file at the destination path is unlinked, so no file
remains at `localPath` afterwards; the error counter is incremented; and if
a pre-existing file was displaced to temp before the failed download, the
old content stays at the temp path — it is not restored to the destination. -/
theorem claim_C10_failed_download_cleanup (tmpDir localPath : Path)
    (name : String) (url : Listing) (st : St)
    (h1 : ¬ tmpDir <+: localPath) (h2 : ¬ localPath <+: tmpDir) :
    (processItem tmpDir (.mk name "file" url (some none)) localPath st).fs.lookupFile
        (localPath ++ [name]) = none ∧
    (processItem tmpDir (.mk name "file" url (some none)) localPath st).stats.errors
        = st.stats.errors + 1 ∧
    (∀ c, st.fs.lookupFile (localPath ++ [name]) = some c →
      (processItem tmpDir (.mk name "file" url (some none)) localPath st).fs.lookupFile
          (tmpDir ++ [name ++ "." ++ toString st.now]) = some c) := by
  have htpq : ¬ (tmpDir ++ [name ++ "." ++ toString st.now]) <+: (localPath ++ [name]) :=
    not_snoc_pref_of_disj h1 h2
  have hqtp : ¬ (localPath ++ [name]) = (tmpDir ++ [name ++ "." ++ toString st.now]) := by
    intro e
    exact htpq (e ▸ List.prefix_rfl)
  refine ⟨?_, ?_, ?_⟩
  · by_cases hex : st.fs.existsSync (localPath ++ [name]) = true
    · simp only [processItem, hex, downloadFile, String.reduceEq, reduceIte]
      exact FS.lookupFile_unlink_self _ _
    · simp only [processItem, Bool.not_eq_true] at hex ⊢
      simp only [hex, downloadFile, String.reduceEq, reduceIte]
      exact FS.lookupFile_unlink_self _ _
  · by_cases hex : st.fs.existsSync (localPath ++ [name]) = true
    · simp [processItem, hex, downloadFile]
    · simp only [Bool.not_eq_true] at hex
      simp [processItem, hex, downloadFile]
  · intro c hc
    have hex : st.fs.existsSync (localPath ++ [name]) = true :=
      FS.existsSync_of_lookupFile hc
    simp only [processItem, hex, downloadFile, String.reduceEq, reduceIte]
    rw [FS.lookupFile_unlink_ne _ (fun e => hqtp e.symm)]
    rw [FS.rename_lookupFile_dst st.fs htpq]
    exact hc

/-- Witness for C10 at a concrete displaced file whose new download fails. -/
theorem claim_C10_witness :
    (processItem ["tmp"] (.mk "a" "file" .fail (some none)) ["dest"]
      ⟨⟨[], [(["dest", "a"], "old")]⟩, ⟨0, 0, 0⟩, 7, []⟩).fs.lookupFile
        (["dest"] ++ ["a"]) = none ∧
    (processItem ["tmp"] (.mk "a" "file" .fail (some none)) ["dest"]
      ⟨⟨[], [(["dest", "a"], "old")]⟩, ⟨0, 0, 0⟩, 7, []⟩).fs.lookupFile
        (["tmp"] ++ ["a" ++ "." ++ toString 7]) = some "old" := by
  have h := claim_C10_failed_download_cleanup ["tmp"] ["dest"] "a" .fail
    ⟨⟨[], [(["dest", "a"], "old")]⟩, ⟨0, 0, 0⟩, 7, []⟩ (by decide) (by decide)
  exact ⟨h.1, h.2.2 "old" (by rfl)⟩

/-! Trace monotonicity: the traversal only ever appends to the event trace. -/

mutual

theorem traceMonoDir (tmpDir : Path) (d : Listing) (p : Path) (st : St) :
    ∃ t, (downloadDirectory tmpDir d p st).1.trace = st.trace ++ t := by
  cases d with
  | fail => exact ⟨[Ev.listFailEv p], rfl⟩
  | notArray => exact ⟨[Ev.badPayloadEv p], rfl⟩
  | ok items =>
    have h := traceMonoItems tmpDir items p { st with now := st.now + 1 }
    simpa [downloadDirectory] using h

theorem traceMonoItems (tmpDir : Path) (items : Items) (p : Path) (st : St) :
    ∃ t, (processItems tmpDir items p st).trace = st.trace ++ t := by
  cases items with
  | nil => exact ⟨[], by simp [processItems]⟩
  | cons i rest =>
    obtain ⟨t1, h1⟩ := traceMonoItem tmpDir i p st
    obtain ⟨t2, h2⟩ := traceMonoItems tmpDir rest p (processItem tmpDir i p st)
    refine ⟨t1 ++ t2, ?_⟩
    simp only [processItems]
    rw [h2, h1, List.append_assoc]

theorem traceMonoItem (tmpDir : Path) (i : Item) (p : Path) (st : St) :
    ∃ t, (processItem tmpDir i p st).trace = st.trace ++ t := by
  obtain ⟨name, ty, url, durl⟩ := i
  by_cases hdir : ty = "dir"
  · subst hdir
    by_cases hex : st.fs.existsSync (p ++ [name]) = true
    · obtain ⟨t, h⟩ := traceMonoDir tmpDir url (p ++ [name]) st
      refine ⟨t, ?_⟩
      simpa [processItem, hex] using h
    · simp only [Bool.not_eq_true] at hex
      obtain ⟨t, h⟩ := traceMonoDir tmpDir url (p ++ [name])
        ⟨st.fs.mkdir (p ++ [name]), st.stats, st.now,
          st.trace ++ [Ev.mkdirEv (p ++ [name])]⟩
      refine ⟨[Ev.mkdirEv (p ++ [name])] ++ t, ?_⟩
      simp only [processItem, hex, reduceIte, if_pos rfl]
      rw [← List.append_assoc]
      simpa using h
  · by_cases hfile : ty = "file"
    · subst hfile
      cases durl with
      | none => exact ⟨[], by simp [processItem, hdir]⟩
      | some fetch =>
        by_cases hex : st.fs.existsSync (p ++ [name]) = true
        · cases fetch with
          | some c =>
            refine ⟨[Ev.renameEv (p ++ [name])
                (tmpDir ++ [name ++ "." ++ toString st.now]),
                Ev.fetchEv (p ++ [name]), Ev.wroteEv (p ++ [name])], ?_⟩
            simp [processItem, hdir, hex, downloadFile]
          | none =>
            refine ⟨[Ev.renameEv (p ++ [name])
                (tmpDir ++ [name ++ "." ++ toString st.now]),
                Ev.fetchEv (p ++ [name]), Ev.failEv (p ++ [name])], ?_⟩
            simp [processItem, hdir, hex, downloadFile]
        · simp only [Bool.not_eq_true] at hex
          cases fetch with
          | some c =>
            refine ⟨[Ev.fetchEv (p ++ [name]), Ev.wroteEv (p ++ [name])], ?_⟩
            simp [processItem, hdir, hex, downloadFile]
          | none =>
            refine ⟨[Ev.fetchEv (p ++ [name]), Ev.failEv (p ++ [name])], ?_⟩
            simp [processItem, hdir, hex, downloadFile]
    · exact ⟨[], by simp [processItem, hdir, hfile]⟩

end

/-- Processing a concatenation of item lists processes the first run to
completion and continues with the second from the resulting state. -/
theorem processItems_app (tmpDir : Path) (xs ys : Items) (p : Path) (st : St) :
    processItems tmpDir (xs.app ys) p st
      = processItems tmpDir ys p (processItems tmpDir xs p st) := by
  cases xs with
  | nil => rfl
  | cons x xs2 =>
    simpa [Items.app, processItems] using
      processItems_app tmpDir xs2 ys p (processItem tmpDir x p st)

/-! Claim C8: strictly sequential depth-first traversal. -/

/-- C8: traversal is strictly sequential and depth-first: a listing's items
are processed one at a time in exactly the order returned by the provider
(the loop is the left fold of `processItem`, with no sorting or reordering,
and each item's processing — including the entire recursive descent into a
subdirectory — completes before the next sibling begins), and a missing
local directory is created (the `mkdir` event) before any event of the
recursion into it. -/
theorem claim_C8_sequential_depth_first :
    (∀ tmpDir i rest p st,
      processItems tmpDir (.cons i rest) p st
        = processItems tmpDir rest p (processItem tmpDir i p st)) ∧
    (∀ tmpDir xs ys p st,
      processItems tmpDir (xs.app ys) p st
        = processItems tmpDir ys p (processItems tmpDir xs p st)) ∧
    (∀ tmpDir p st name url durl,
      st.fs.existsSync (p ++ [name]) = false →
      ∃ rest : List Ev,
        (processItem tmpDir (.mk name "dir" url durl) p st).trace
          = st.trace ++ Ev.mkdirEv (p ++ [name]) :: rest) := by
  refine ⟨fun tmpDir i rest p st => rfl,
    fun tmpDir xs ys p st => processItems_app tmpDir xs ys p st,
    fun tmpDir p st name url durl hex => ?_⟩
  · obtain ⟨t, h⟩ := traceMonoDir tmpDir url (p ++ [name])
      ⟨st.fs.mkdir (p ++ [name]), st.stats, st.now,
        st.trace ++ [Ev.mkdirEv (p ++ [name])]⟩
    refine ⟨t, ?_⟩
    simp only [processItem, hex, reduceIte, if_pos rfl]
    have : st.trace ++ [Ev.mkdirEv (p ++ [name])] ++ t
        = st.trace ++ Ev.mkdirEv (p ++ [name]) :: t := by
      rw [List.append_assoc]; rfl
    rw [← this]
    simpa using h

/-- Witness for C8 at a concrete fresh subdirectory. -/
theorem claim_C8_witness :
    ∃ rest : List Ev,
      (processItem ["tmp"] (.mk "sub" "dir" (.ok .nil) none) ["dest"]
        ⟨⟨[], []⟩, ⟨0, 0, 0⟩, 0, []⟩).trace
        = [] ++ Ev.mkdirEv (["dest"] ++ ["sub"]) :: rest :=
  claim_C8_sequential_depth_first.2.2 ["tmp"] ["dest"]
    ⟨⟨[], []⟩, ⟨0, 0, 0⟩, 0, []⟩ "sub" (.ok .nil) none (by decide)

/-! Counter bound: each visited file entry and each failed listing call
accounts for at most one unit of `downloaded + errors`. -/

mutual

theorem cntBoundDir (tmpDir : Path) (d : Listing) (p : Path) (st : St) :
    (downloadDirectory tmpDir d p st).1.stats.downloaded
      + (downloadDirectory tmpDir d p st).1.stats.errors
      ≤ st.stats.downloaded + st.stats.errors + visitedFiles d + listFails d := by
  cases d with
  | fail => simp [downloadDirectory, visitedFiles, listFails]; omega
  | notArray => simp [downloadDirectory, visitedFiles, listFails]
  | ok items =>
    have h := cntBoundItems tmpDir items p ⟨st.fs, st.stats, st.now + 1, st.trace⟩
    simp only [downloadDirectory, visitedFiles, listFails] at *
    omega

theorem cntBoundItems (tmpDir : Path) (items : Items) (p : Path) (st : St) :
    (processItems tmpDir items p st).stats.downloaded
      + (processItems tmpDir items p st).stats.errors
      ≤ st.stats.downloaded + st.stats.errors + visitedFilesItems items
        + listFailsItems items := by
  cases items with
  | nil => simp [processItems, visitedFilesItems, listFailsItems]
  | cons i rest =>
    have h1 := cntBoundItem tmpDir i p st
    have h2 := cntBoundItems tmpDir rest p (processItem tmpDir i p st)
    simp only [processItems, visitedFilesItems, listFailsItems] at *
    omega

theorem cntBoundItem (tmpDir : Path) (i : Item) (p : Path) (st : St) :
    (processItem tmpDir i p st).stats.downloaded
      + (processItem tmpDir i p st).stats.errors
      ≤ st.stats.downloaded + st.stats.errors + visitedFilesItem i
        + listFailsItem i := by
  obtain ⟨name, ty, url, durl⟩ := i
  by_cases hdir : ty = "dir"
  · subst hdir
    by_cases hex : st.fs.existsSync (p ++ [name]) = true
    · have h := cntBoundDir tmpDir url (p ++ [name]) st
      simp only [processItem, hex, reduceIte, if_pos rfl, visitedFilesItem,
        listFailsItem] at *
      omega
    · simp only [Bool.not_eq_true] at hex
      have h := cntBoundDir tmpDir url (p ++ [name])
        ⟨st.fs.mkdir (p ++ [name]), st.stats, st.now,
          st.trace ++ [Ev.mkdirEv (p ++ [name])]⟩
      simp only [processItem, hex, Bool.false_eq_true, reduceIte, if_pos rfl,
        visitedFilesItem, listFailsItem] at *
      omega
  · by_cases hfile : ty = "file"
    · subst hfile
      cases durl with
      | none =>
        simp [processItem, hdir, visitedFilesItem, listFailsItem]
      | some fetch =>
        by_cases hex : st.fs.existsSync (p ++ [name]) = true
        · cases fetch with
          | some c =>
            simp only [processItem, hdir, hex, downloadFile, reduceIte,
              visitedFilesItem, listFailsItem, if_pos rfl]
            omega
          | none =>
            simp only [processItem, hdir, hex, downloadFile, reduceIte,
              visitedFilesItem, listFailsItem, if_pos rfl]
            omega
        · simp only [Bool.not_eq_true] at hex
          cases fetch with
          | some c =>
            simp only [processItem, hdir, hex, downloadFile, Bool.false_eq_true,
              reduceIte, visitedFilesItem, listFailsItem, if_pos rfl]
            omega
          | none =>
            simp only [processItem, hdir, hex, downloadFile, Bool.false_eq_true,
              reduceIte, visitedFilesItem, listFailsItem, if_pos rfl]
            omega
    · simp [processItem, hdir, hfile, visitedFilesItem, listFailsItem]

end

/-! Claim C6: the counter invariant. -/

/-- C6 counterexample: a traversal whose top-level listing fails in transport
visits zero file entries yet ends with `downloaded + errors = 1` — the error
counter also counts failed listing calls, so the claimed invariant
`downloaded + errors ≤ totalFileEntriesVisited` does not hold. -/
theorem claim_C6_counterexample :
    ¬ ((downloadDirectory ["tmp"] .fail ["dest"]
          ⟨⟨[], []⟩, ⟨0, 0, 0⟩, 0, []⟩).1.stats.downloaded
        + (downloadDirectory ["tmp"] .fail ["dest"]
            ⟨⟨[], []⟩, ⟨0, 0, 0⟩, 0, []⟩).1.stats.errors
        ≤ visitedFiles .fail) := by
  decide

/-- C6 amended: throughout any traversal the counters satisfy
`downloaded + errors ≤ totalFileEntriesVisited + failedListingCalls` — each
failed directory listing adds one error without any file entry; and
`displaced ≤ downloaded` indeed need not hold, witnessed by a displaced file
whose re-download fails (`moved = 1`, `downloaded = 0`). -/
theorem claim_C6_amended :
    (∀ tmpDir d p st,
      (downloadDirectory tmpDir d p st).1.stats.downloaded
        + (downloadDirectory tmpDir d p st).1.stats.errors
        ≤ st.stats.downloaded + st.stats.errors + visitedFiles d + listFails d) ∧
    ((processItem ["tmp"] (.mk "a" "file" .fail (some none)) ["dest"]
        ⟨⟨[], [(["dest", "a"], "old")]⟩, ⟨0, 0, 0⟩, 0, []⟩).stats.moved = 1 ∧
      (processItem ["tmp"] (.mk "a" "file" .fail (some none)) ["dest"]
        ⟨⟨[], [(["dest", "a"], "old")]⟩, ⟨0, 0, 0⟩, 0, []⟩).stats.downloaded = 0) :=
  ⟨fun tmpDir d p st => cntBoundDir tmpDir d p st, by decide, by decide⟩

/-! Frame lemmas: processing a subtree rooted at `p` only touches files
strictly under `p` and files inside the temp directory. -/

mutual

theorem frameDir (tmpDir : Path) (d : Listing) (p : Path) (st : St) (q : Path)
    (hp : ¬ p <+: q) (ht : ¬ tmpDir <+: q) :
    (downloadDirectory tmpDir d p st).1.fs.lookupFile q = st.fs.lookupFile q := by
  cases d with
  | fail => rfl
  | notArray => rfl
  | ok items =>
    exact frameItems tmpDir items p ⟨st.fs, st.stats, st.now + 1, st.trace⟩ q hp ht

theorem frameItems (tmpDir : Path) (items : Items) (p : Path) (st : St) (q : Path)
    (hp : ¬ p <+: q) (ht : ¬ tmpDir <+: q) :
    (processItems tmpDir items p st).fs.lookupFile q = st.fs.lookupFile q := by
  cases items with
  | nil => rfl
  | cons i rest =>
    have hpi : ¬ (p ++ [i.name]) <+: q := fun h =>
      hp ((List.prefix_append p [i.name]).trans h)
    calc (processItems tmpDir (.cons i rest) p st).fs.lookupFile q
        = (processItem tmpDir i p st).fs.lookupFile q :=
          frameItems tmpDir rest p (processItem tmpDir i p st) q hp ht
      _ = st.fs.lookupFile q := frameItem tmpDir i p st q hpi ht

theorem frameItem (tmpDir : Path) (i : Item) (p : Path) (st : St) (q : Path)
    (hp : ¬ (p ++ [i.name]) <+: q) (ht : ¬ tmpDir <+: q) :
    (processItem tmpDir i p st).fs.lookupFile q = st.fs.lookupFile q := by
  obtain ⟨name, ty, url, durl⟩ := i
  simp only [Item.name] at hp
  by_cases hdir : ty = "dir"
  · subst hdir
    by_cases hex : st.fs.existsSync (p ++ [name]) = true
    · simp only [processItem, hex, reduceIte, if_pos rfl]
      exact frameDir tmpDir url (p ++ [name]) st q hp ht
    · simp only [Bool.not_eq_true] at hex
      simp only [processItem, hex, Bool.false_eq_true, reduceIte, if_pos rfl]
      exact frameDir tmpDir url (p ++ [name])
        ⟨st.fs.mkdir (p ++ [name]), st.stats, st.now,
          st.trace ++ [Ev.mkdirEv (p ++ [name])]⟩ q hp ht
  · by_cases hfile : ty = "file"
    · subst hfile
      cases durl with
      | none => simp [processItem, hdir]
      | some fetch =>
        have hqne : q ≠ p ++ [name] := fun e => hp (e ▸ List.prefix_rfl)
        have htp : ¬ (tmpDir ++ [name ++ "." ++ toString st.now]) <+: q := fun h =>
          ht ((List.prefix_append tmpDir _).trans h)
        by_cases hex : st.fs.existsSync (p ++ [name]) = true
        · cases fetch with
          | some c =>
            simp only [processItem, hdir, hex, downloadFile, reduceIte, if_pos rfl]
            rw [FS.lookupFile_writeFile_ne _ _ hqne]
            exact FS.rename_lookupFile_other st.fs hp htp
          | none =>
            simp only [processItem, hdir, hex, downloadFile, reduceIte, if_pos rfl]
            rw [FS.lookupFile_unlink_ne _ hqne]
            exact FS.rename_lookupFile_other st.fs hp htp
        · simp only [Bool.not_eq_true] at hex
          cases fetch with
          | some c =>
            simp only [processItem, hdir, hex, downloadFile, Bool.false_eq_true,
              reduceIte, if_pos rfl]
            exact FS.lookupFile_writeFile_ne _ _ hqne
          | none =>
            simp only [processItem, hdir, hex, downloadFile, Bool.false_eq_true,
              reduceIte, if_pos rfl]
            exact FS.lookupFile_unlink_ne _ hqne
    · simp [processItem, hdir, hfile]

end

/-- Processing a list of items none of whose names leads towards `q` leaves
the file at `q` untouched. -/
theorem framePreserve (tmpDir : Path) (items : Items) (p : Path) (st : St)
    (q : Path) (hn : ∀ n, hasName items n = true → ¬ (p ++ [n]) <+: q)
    (ht : ¬ tmpDir <+: q) :
    (processItems tmpDir items p st).fs.lookupFile q = st.fs.lookupFile q := by
  cases items with
  | nil => rfl
  | cons i rest =>
    calc (processItems tmpDir (.cons i rest) p st).fs.lookupFile q
        = (processItem tmpDir i p st).fs.lookupFile q :=
          framePreserve tmpDir rest p _ q
            (fun n h => hn n (by simp [hasName, h])) ht
      _ = st.fs.lookupFile q :=
          frameItem tmpDir i p st q (hn i.name (by simp [hasName])) ht

/-- A located file's relative path starts with the item's own name. -/
theorem fileAtItemB_shape {i : Item} {r : Path} {oc : Option String}
    (h : fileAtItemB i r oc = true) : ∃ r2, r = i.name :: r2 := by
  obtain ⟨name, ty, url, durl⟩ := i
  by_cases hdir : ty = "dir"
  · subst hdir
    simp only [fileAtItemB, String.reduceEq, reduceIte, if_pos rfl] at h
    cases r with
    | nil => exact absurd h (by simp)
    | cons n r2 =>
      simp only [Bool.and_eq_true, decide_eq_true_eq] at h
      exact ⟨r2, by rw [h.1]; rfl⟩
  · by_cases hfile : ty = "file"
    · subst hfile
      simp only [fileAtItemB, hdir, reduceIte, Bool.and_eq_true,
        decide_eq_true_eq] at h
      exact ⟨[], by rw [h.1]; rfl⟩
    · simp only [fileAtItemB, hdir, hfile, reduceIte] at h
      exact absurd h (by simp)

/-- A located file's relative path starts with the name of some listed item. -/
theorem fileAtItemsB_shape {items : Items} {r : Path} {oc : Option String}
    (h : fileAtItemsB items r oc = true) :
    ∃ n r2, r = n :: r2 ∧ hasName items n = true := by
  cases items with
  | nil => simp [fileAtItemsB] at h
  | cons i rest =>
    simp only [fileAtItemsB, Bool.or_eq_true] at h
    rcases h with h | h
    · obtain ⟨r2, hr⟩ := fileAtItemB_shape h
      exact ⟨i.name, r2, hr, by simp [hasName]⟩
    · obtain ⟨n, r2, hr, hn⟩ := fileAtItemsB_shape h
      exact ⟨n, r2, hr, by simp [hasName, hn]⟩

/-! Establishment: in a well-formed all-array tree, every file entry ends up
with its download outcome materialised at its mirrored local path —
successful fetches leave their content there, failed fetches leave nothing. -/

mutual

theorem estDir (tmpDir : Path) (d : Listing) (p : Path) (st : St) (r : Path)
    (oc : Option String) (hwf : wfTree d = true)
    (h1 : ¬ tmpDir <+: p) (h2 : ¬ p <+: tmpDir)
    (hat : fileAtB d r oc = true) :
    (downloadDirectory tmpDir d p st).1.fs.lookupFile (p ++ r) = oc := by
  cases d with
  | fail => exact absurd hwf (by simp [wfTree])
  | notArray => exact absurd hwf (by simp [wfTree])
  | ok items =>
    exact estItems tmpDir items p ⟨st.fs, st.stats, st.now + 1, st.trace⟩ r oc
      hwf h1 h2 hat

theorem estItems (tmpDir : Path) (items : Items) (p : Path) (st : St) (r : Path)
    (oc : Option String) (hwf : wfTreeItems items = true)
    (h1 : ¬ tmpDir <+: p) (h2 : ¬ p <+: tmpDir)
    (hat : fileAtItemsB items r oc = true) :
    (processItems tmpDir items p st).fs.lookupFile (p ++ r) = oc := by
  cases items with
  | nil => exact absurd hat (by simp [fileAtItemsB])
  | cons i rest =>
    simp only [wfTreeItems, Bool.and_eq_true, Bool.not_eq_true'] at hwf
    obtain ⟨⟨hn, hwi⟩, hwr⟩ := hwf
    simp only [fileAtItemsB, Bool.or_eq_true] at hat
    have ht' : ¬ tmpDir <+: (p ++ r) :=
      not_tmp_pref_of_between h1 h2 (List.prefix_append p r)
    rcases hat with hi | hrest
    · obtain ⟨r2, hr⟩ := fileAtItemB_shape hi
      show (processItems tmpDir rest p (processItem tmpDir i p st)).fs.lookupFile
        (p ++ r) = oc
      rw [framePreserve tmpDir rest p _ (p ++ r) ?_ ht']
      · exact estItem tmpDir i p st r oc hwi h1 h2 hi
      · intro n hnn hpre
        subst hr
        rw [List.prefix_append_right_inj] at hpre
        obtain ⟨heq, _⟩ := List.cons_prefix_cons.mp hpre
        subst heq
        rw [hnn] at hn
        exact absurd hn (by simp)
    · exact estItems tmpDir rest p (processItem tmpDir i p st) r oc hwr h1 h2 hrest

theorem estItem (tmpDir : Path) (i : Item) (p : Path) (st : St) (r : Path)
    (oc : Option String) (hwf : wfTreeItem i = true)
    (h1 : ¬ tmpDir <+: p) (h2 : ¬ p <+: tmpDir)
    (hat : fileAtItemB i r oc = true) :
    (processItem tmpDir i p st).fs.lookupFile (p ++ r) = oc := by
  obtain ⟨name, ty, url, durl⟩ := i
  by_cases hdir : ty = "dir"
  · subst hdir
    simp only [fileAtItemB, String.reduceEq, reduceIte, if_pos rfl] at hat
    cases r with
    | nil => exact absurd hat (by simp)
    | cons n r2 =>
      simp only [Bool.and_eq_true, decide_eq_true_eq] at hat
      obtain ⟨heq, hat2⟩ := hat
      subst heq
      simp only [wfTreeItem, String.reduceEq, reduceIte, if_pos rfl] at hwf
      obtain ⟨hc1, hc2⟩ := disj_child n h1 h2
      rw [List.append_cons]
      by_cases hex : st.fs.existsSync (p ++ [n]) = true
      · simp only [processItem, hex, reduceIte, if_pos rfl]
        exact estDir tmpDir url (p ++ [n]) st r2 oc hwf hc1 hc2 hat2
      · simp only [Bool.not_eq_true] at hex
        simp only [processItem, hex, Bool.false_eq_true, reduceIte, if_pos rfl]
        exact estDir tmpDir url (p ++ [n])
          ⟨st.fs.mkdir (p ++ [n]), st.stats, st.now,
            st.trace ++ [Ev.mkdirEv (p ++ [n])]⟩ r2 oc hwf hc1 hc2 hat2
  · by_cases hfile : ty = "file"
    · subst hfile
      simp only [fileAtItemB, hdir, reduceIte, Bool.and_eq_true,
        decide_eq_true_eq] at hat
      obtain ⟨hr, hm⟩ := hat
      subst hr
      cases durl with
      | none => exact absurd hm (by simp)
      | some fetch =>
        cases fetch with
        | some c =>
          cases oc with
          | none => exact absurd hm (by simp)
          | some c2 =>
            simp only [decide_eq_true_eq] at hm
            subst hm
            by_cases hex : st.fs.existsSync (p ++ [name]) = true
            · simp only [processItem, hdir, hex, downloadFile, reduceIte,
                if_pos rfl]
              exact FS.lookupFile_writeFile_self _ _ _
            · simp only [Bool.not_eq_true] at hex
              simp only [processItem, hdir, hex, downloadFile, Bool.false_eq_true,
                reduceIte, if_pos rfl]
              exact FS.lookupFile_writeFile_self _ _ _
        | none =>
          cases oc with
          | some c2 => exact absurd hm (by simp)
          | none =>
            by_cases hex : st.fs.existsSync (p ++ [name]) = true
            · simp only [processItem, hdir, hex, downloadFile, reduceIte,
                if_pos rfl]
              exact FS.lookupFile_unlink_self _ _
            · simp only [Bool.not_eq_true] at hex
              simp only [processItem, hdir, hex, downloadFile, Bool.false_eq_true,
                reduceIte, if_pos rfl]
              exact FS.lookupFile_unlink_self _ _
    · exact absurd hat (by simp [fileAtItemB, hdir, hfile])

end

/-! Exact counters: over a well-formed all-array tree, `downloaded` grows by
exactly the number of successful file fetches and `errors` by exactly the
number of failing ones. -/

mutual

theorem cntExactDir (tmpDir : Path) (d : Listing) (p : Path) (st : St)
    (hwf : wfTree d = true) :
    (downloadDirectory tmpDir d p st).1.stats.downloaded
        = st.stats.downloaded + goodFiles d ∧
    (downloadDirectory tmpDir d p st).1.stats.errors
        = st.stats.errors + badFiles d := by
  cases d with
  | fail => exact absurd hwf (by simp [wfTree])
  | notArray => exact absurd hwf (by simp [wfTree])
  | ok items =>
    have h := cntExactItems tmpDir items p ⟨st.fs, st.stats, st.now + 1, st.trace⟩ hwf
    simpa [downloadDirectory, goodFiles, badFiles] using h

theorem cntExactItems (tmpDir : Path) (items : Items) (p : Path) (st : St)
    (hwf : wfTreeItems items = true) :
    (processItems tmpDir items p st).stats.downloaded
        = st.stats.downloaded + goodFilesItems items ∧
    (processItems tmpDir items p st).stats.errors
        = st.stats.errors + badFilesItems items := by
  cases items with
  | nil => simp [processItems, goodFilesItems, badFilesItems]
  | cons i rest =>
    simp only [wfTreeItems, Bool.and_eq_true, Bool.not_eq_true'] at hwf
    obtain ⟨⟨hn, hwi⟩, hwr⟩ := hwf
    have hhead := cntExactItem tmpDir i p st hwi
    have htail := cntExactItems tmpDir rest p (processItem tmpDir i p st) hwr
    simp only [processItems, goodFilesItems, badFilesItems] at *
    omega

theorem cntExactItem (tmpDir : Path) (i : Item) (p : Path) (st : St)
    (hwf : wfTreeItem i = true) :
    (processItem tmpDir i p st).stats.downloaded
        = st.stats.downloaded + goodFilesItem i ∧
    (processItem tmpDir i p st).stats.errors
        = st.stats.errors + badFilesItem i := by
  obtain ⟨name, ty, url, durl⟩ := i
  by_cases hdir : ty = "dir"
  · subst hdir
    simp only [wfTreeItem, String.reduceEq, reduceIte, if_pos rfl] at hwf
    by_cases hex : st.fs.existsSync (p ++ [name]) = true
    · have h := cntExactDir tmpDir url (p ++ [name]) st hwf
      simp only [processItem, hex, reduceIte, if_pos rfl, goodFilesItem,
        badFilesItem] at *
      omega
    · simp only [Bool.not_eq_true] at hex
      have h := cntExactDir tmpDir url (p ++ [name])
        ⟨st.fs.mkdir (p ++ [name]), st.stats, st.now,
          st.trace ++ [Ev.mkdirEv (p ++ [name])]⟩ hwf
      simp only [processItem, hex, Bool.false_eq_true, reduceIte, if_pos rfl,
        goodFilesItem, badFilesItem] at *
      omega
  · by_cases hfile : ty = "file"
    · subst hfile
      cases durl with
      | none => simp [processItem, hdir, goodFilesItem, badFilesItem]
      | some fetch =>
        by_cases hex : st.fs.existsSync (p ++ [name]) = true
        · cases fetch with
          | some c =>
            simp only [processItem, hdir, hex, downloadFile, reduceIte,
              goodFilesItem, badFilesItem, if_pos rfl]
            simp
          | none =>
            simp only [processItem, hdir, hex, downloadFile, reduceIte,
              goodFilesItem, badFilesItem, if_pos rfl]
            simp
        · simp only [Bool.not_eq_true] at hex
          cases fetch with
          | some c =>
            simp only [processItem, hdir, hex, downloadFile, Bool.false_eq_true,
              reduceIte, goodFilesItem, badFilesItem, if_pos rfl]
            simp
          | none =>
            simp only [processItem, hdir, hex, downloadFile, Bool.false_eq_true,
              reduceIte, goodFilesItem, badFilesItem, if_pos rfl]
            simp
    · simp [processItem, hdir, hfile, goodFilesItem, badFilesItem]

end

/-! In an all-good tree every located file's outcome carries content. -/

mutual

theorem goodOcDir {d : Listing} {r : Path} {oc : Option String}
    (hg : allGood d = true) (hat : fileAtB d r oc = true) : oc.isSome = true := by
  cases d with
  | fail => exact absurd hat (by simp [fileAtB])
  | notArray => exact absurd hat (by simp [fileAtB])
  | ok items => exact goodOcItems hg hat

theorem goodOcItems {items : Items} {r : Path} {oc : Option String}
    (hg : allGoodItems items = true) (hat : fileAtItemsB items r oc = true) :
    oc.isSome = true := by
  cases items with
  | nil => exact absurd hat (by simp [fileAtItemsB])
  | cons i rest =>
    simp only [allGoodItems, Bool.and_eq_true] at hg
    simp only [fileAtItemsB, Bool.or_eq_true] at hat
    rcases hat with h | h
    · exact goodOcItem hg.1 h
    · exact goodOcItems hg.2 h

theorem goodOcItem {i : Item} {r : Path} {oc : Option String}
    (hg : allGoodItem i = true) (hat : fileAtItemB i r oc = true) :
    oc.isSome = true := by
  obtain ⟨name, ty, url, durl⟩ := i
  by_cases hdir : ty = "dir"
  · subst hdir
    simp only [allGoodItem, String.reduceEq, reduceIte, if_pos rfl] at hg
    simp only [fileAtItemB, String.reduceEq, reduceIte, if_pos rfl] at hat
    cases r with
    | nil => exact absurd hat (by simp)
    | cons n r2 =>
      simp only [Bool.and_eq_true] at hat
      exact goodOcDir hg hat.2
  · by_cases hfile : ty = "file"
    · subst hfile
      simp only [allGoodItem, hdir, reduceIte] at hg
      simp only [fileAtItemB, hdir, reduceIte, Bool.and_eq_true] at hat
      cases durl with
      | none => exact absurd hg (by simp)
      | some fetch =>
        cases fetch with
        | some c =>
          cases oc with
          | none => exact absurd hat.2 (by simp)
          | some c2 => rfl
        | none => exact absurd hg (by simp)
    · exact absurd hat (by simp [fileAtItemB, hdir, hfile])

end

/-! Displacement counting: when every file of a well-formed tree is already
present locally and every fetch succeeds, each file entry is displaced and
re-downloaded exactly once. -/

mutual

theorem mvCntDir (tmpDir : Path) (d : Listing) (p : Path) (st : St)
    (hwf : wfTree d = true) (hg : allGood d = true)
    (h1 : ¬ tmpDir <+: p) (h2 : ¬ p <+: tmpDir)
    (hocc : ∀ r oc, fileAtB d r oc = true →
      (st.fs.lookupFile (p ++ r)).isSome = true) :
    (downloadDirectory tmpDir d p st).1.stats.moved
        = st.stats.moved + goodFiles d := by
  cases d with
  | fail => exact absurd hwf (by simp [wfTree])
  | notArray => exact absurd hwf (by simp [wfTree])
  | ok items =>
    have h := mvCntItems tmpDir items p ⟨st.fs, st.stats, st.now + 1, st.trace⟩
      hwf hg h1 h2 hocc
    simpa [downloadDirectory, goodFiles] using h

theorem mvCntItems (tmpDir : Path) (items : Items) (p : Path) (st : St)
    (hwf : wfTreeItems items = true) (hg : allGoodItems items = true)
    (h1 : ¬ tmpDir <+: p) (h2 : ¬ p <+: tmpDir)
    (hocc : ∀ r oc, fileAtItemsB items r oc = true →
      (st.fs.lookupFile (p ++ r)).isSome = true) :
    (processItems tmpDir items p st).stats.moved
        = st.stats.moved + goodFilesItems items := by
  cases items with
  | nil => simp [processItems, goodFilesItems]
  | cons i rest =>
    simp only [wfTreeItems, Bool.and_eq_true, Bool.not_eq_true'] at hwf
    obtain ⟨⟨hn, hwi⟩, hwr⟩ := hwf
    simp only [allGoodItems, Bool.and_eq_true] at hg
    have hhead := mvCntItem tmpDir i p st hwi hg.1 h1 h2
      (fun r oc h => hocc r oc (by simp [fileAtItemsB, h]))
    have htail := mvCntItems tmpDir rest p (processItem tmpDir i p st) hwr hg.2 h1 h2 ?_
    · simp only [processItems, goodFilesItems] at *
      omega
    · intro r oc h
      obtain ⟨n, r2, hr, hn2⟩ := fileAtItemsB_shape h
      have hne : n ≠ i.name := by
        rintro rfl
        rw [hn2] at hn
        exact absurd hn (by simp)
      rw [frameItem tmpDir i p st (p ++ r) ?_ ?_]
      · exact hocc r oc (by simp [fileAtItemsB, h])
      · subst hr
        intro hpre
        rw [List.prefix_append_right_inj] at hpre
        obtain ⟨heq, _⟩ := List.cons_prefix_cons.mp hpre
        exact hne heq.symm
      · exact not_tmp_pref_of_between h1 h2 (List.prefix_append p r)

theorem mvCntItem (tmpDir : Path) (i : Item) (p : Path) (st : St)
    (hwf : wfTreeItem i = true) (hg : allGoodItem i = true)
    (h1 : ¬ tmpDir <+: p) (h2 : ¬ p <+: tmpDir)
    (hocc : ∀ r oc, fileAtItemB i r oc = true →
      (st.fs.lookupFile (p ++ r)).isSome = true) :
    (processItem tmpDir i p st).stats.moved
        = st.stats.moved + goodFilesItem i := by
  obtain ⟨name, ty, url, durl⟩ := i
  by_cases hdir : ty = "dir"
  · subst hdir
    simp only [wfTreeItem, String.reduceEq, reduceIte, if_pos rfl] at hwf
    simp only [allGoodItem, String.reduceEq, reduceIte, if_pos rfl] at hg
    obtain ⟨hc1, hc2⟩ := disj_child name h1 h2
    have hocc2 : ∀ (st1 : St), st1.fs.files = st.fs.files →
        ∀ r2 oc, fileAtB url r2 oc = true →
        (st1.fs.lookupFile ((p ++ [name]) ++ r2)).isSome = true := by
      intro st1 hfiles r2 oc h
      have hat : fileAtItemB (.mk name "dir" url durl) (name :: r2) oc = true := by
        simp [fileAtItemB, h]
      have := hocc (name :: r2) oc hat
      rw [← List.append_cons]
      show (lookupF st1.fs.files _).isSome = true
      rw [hfiles]
      exact this
    by_cases hex : st.fs.existsSync (p ++ [name]) = true
    · have h := mvCntDir tmpDir url (p ++ [name]) st hwf hg hc1 hc2
        (hocc2 st rfl)
      simp only [processItem, hex, reduceIte, if_pos rfl, goodFilesItem] at *
      omega
    · simp only [Bool.not_eq_true] at hex
      have h := mvCntDir tmpDir url (p ++ [name])
        ⟨st.fs.mkdir (p ++ [name]), st.stats, st.now,
          st.trace ++ [Ev.mkdirEv (p ++ [name])]⟩ hwf hg hc1 hc2
        (hocc2 _ rfl)
      simp only [processItem, hex, Bool.false_eq_true, reduceIte, if_pos rfl,
        goodFilesItem] at *
      omega
  · by_cases hfile : ty = "file"
    · subst hfile
      simp only [allGoodItem, hdir, reduceIte] at hg
      cases durl with
      | none => exact absurd hg (by simp)
      | some fetch =>
        cases fetch with
        | none => exact absurd hg (by simp)
        | some c =>
          have hat : fileAtItemB (.mk name "file" url (some (some c)))
              [name] (some c) = true := by
            simp [fileAtItemB, hdir]
          have hsome := hocc [name] (some c) hat
          have hex : st.fs.existsSync (p ++ [name]) = true := by
            simp only [FS.existsSync, Bool.or_eq_true]
            exact Or.inr hsome
          simp only [processItem, hdir, hex, downloadFile, reduceIte,
            goodFilesItem, if_pos rfl]
    · simp [processItem, hdir, hfile, goodFilesItem]

end

/-! Claim C5: isolation of a single failing file fetch. -/

/-- C5: over a well-formed remote tree (every listing an array, sibling
names distinct) in which exactly one file's content fetch fails and the
other `goodFiles` file entries fetch successfully, the run completes with
`downloaded = goodFiles`, `errors = 1`, and every successfully fetched file
present with its content at its mirrored local path. -/
theorem claim_C5_partial_failure_isolation (tmpDir destRoot : Path)
    (d : Listing) (fs0 : FS) (n0 : Nat)
    (hwf : wfTree d = true) (hbad : badFiles d = 1)
    (h1 : ¬ tmpDir <+: destRoot) (h2 : ¬ destRoot <+: tmpDir) :
    (downloadDirectory tmpDir d destRoot ⟨fs0, ⟨0, 0, 0⟩, n0, []⟩).1.stats.downloaded
        = goodFiles d ∧
    (downloadDirectory tmpDir d destRoot ⟨fs0, ⟨0, 0, 0⟩, n0, []⟩).1.stats.errors
        = 1 ∧
    ∀ r c, fileAtB d r (some c) = true →
      (downloadDirectory tmpDir d destRoot ⟨fs0, ⟨0, 0, 0⟩, n0, []⟩).1.fs.lookupFile
        (destRoot ++ r) = some c := by
  have hc := cntExactDir tmpDir d destRoot ⟨fs0, ⟨0, 0, 0⟩, n0, []⟩ hwf
  refine ⟨?_, ?_, ?_⟩
  · simpa using hc.1
  · rw [hc.2, hbad]
  · intro r c h
    exact estDir tmpDir d destRoot ⟨fs0, ⟨0, 0, 0⟩, n0, []⟩ r (some c) hwf h1 h2 h

/-- Witness for C5: two files, of which `b.txt` fails, from an empty start. -/
theorem claim_C5_witness :
    (downloadDirectory ["tmp"]
      (.ok (.cons (.mk "a.txt" "file" .fail (some (some "A")))
        (.cons (.mk "b.txt" "file" .fail (some none)) .nil)))
      ["dest"] ⟨⟨[], []⟩, ⟨0, 0, 0⟩, 0, []⟩).1.stats.downloaded = 1 ∧
    (downloadDirectory ["tmp"]
      (.ok (.cons (.mk "a.txt" "file" .fail (some (some "A")))
        (.cons (.mk "b.txt" "file" .fail (some none)) .nil)))
      ["dest"] ⟨⟨[], []⟩, ⟨0, 0, 0⟩, 0, []⟩).1.stats.errors = 1 ∧
    (downloadDirectory ["tmp"]
      (.ok (.cons (.mk "a.txt" "file" .fail (some (some "A")))
        (.cons (.mk "b.txt" "file" .fail (some none)) .nil)))
      ["dest"] ⟨⟨[], []⟩, ⟨0, 0, 0⟩, 0, []⟩).1.fs.lookupFile
        (["dest"] ++ ["a.txt"]) = some "A" := by
  have h := claim_C5_partial_failure_isolation ["tmp"] ["dest"]
    (.ok (.cons (.mk "a.txt" "file" .fail (some (some "A")))
      (.cons (.mk "b.txt" "file" .fail (some none)) .nil)))
    ⟨[], []⟩ 0 (by decide) (by decide) (by decide) (by decide)
  exact ⟨h.1, h.2.1, h.2.2 ["a.txt"] "A" (by decide)⟩

/-! Claim C7: a second run over an unchanged tree re-displaces and
re-downloads everything. -/

/-- C7: running the synchronization twice over an unchanged well-formed
remote tree whose every file entry fetches successfully (`goodFiles d` is
the total file count), with no local modifications in between, yields on the
second run `downloaded = goodFiles d` and `moved = goodFiles d`: every file
deposited by the first run is displaced and re-downloaded, so the policy is
not a no-op on re-run. -/
theorem claim_C7_rerun_displaces_everything (tmpDir destRoot : Path)
    (d : Listing) (fs0 : FS) (n0 n1 : Nat)
    (hwf : wfTree d = true) (hg : allGood d = true)
    (h1 : ¬ tmpDir <+: destRoot) (h2 : ¬ destRoot <+: tmpDir) :
    (downloadDirectory tmpDir d destRoot
      ⟨(downloadDirectory tmpDir d destRoot ⟨fs0, ⟨0, 0, 0⟩, n0, []⟩).1.fs,
        ⟨0, 0, 0⟩, n1, []⟩).1.stats.downloaded = goodFiles d ∧
    (downloadDirectory tmpDir d destRoot
      ⟨(downloadDirectory tmpDir d destRoot ⟨fs0, ⟨0, 0, 0⟩, n0, []⟩).1.fs,
        ⟨0, 0, 0⟩, n1, []⟩).1.stats.moved = goodFiles d := by
  have hocc : ∀ r oc, fileAtB d r oc = true →
      (((downloadDirectory tmpDir d destRoot
        ⟨fs0, ⟨0, 0, 0⟩, n0, []⟩).1.fs.lookupFile (destRoot ++ r))).isSome = true := by
    intro r oc h
    rw [estDir tmpDir d destRoot ⟨fs0, ⟨0, 0, 0⟩, n0, []⟩ r oc hwf h1 h2 h]
    exact goodOcDir hg h
  have hcnt := cntExactDir tmpDir d destRoot
    ⟨(downloadDirectory tmpDir d destRoot ⟨fs0, ⟨0, 0, 0⟩, n0, []⟩).1.fs,
      ⟨0, 0, 0⟩, n1, []⟩ hwf
  have hmv := mvCntDir tmpDir d destRoot
    ⟨(downloadDirectory tmpDir d destRoot ⟨fs0, ⟨0, 0, 0⟩, n0, []⟩).1.fs,
      ⟨0, 0, 0⟩, n1, []⟩ hwf hg h1 h2 hocc
  exact ⟨by simpa using hcnt.1, by simpa using hmv⟩

/-- Witness for C7 on a concrete two-file tree with a subdirectory. -/
theorem claim_C7_witness :
    (downloadDirectory ["tmp"]
      (.ok (.cons (.mk "a.txt" "file" .fail (some (some "A")))
        (.cons (.mk "sub" "dir"
          (.ok (.cons (.mk "b.txt" "file" .fail (some (some "B"))) .nil)) none)
        .nil)))
      ["dest"]
      ⟨(downloadDirectory ["tmp"]
        (.ok (.cons (.mk "a.txt" "file" .fail (some (some "A")))
          (.cons (.mk "sub" "dir"
            (.ok (.cons (.mk "b.txt" "file" .fail (some (some "B"))) .nil)) none)
          .nil)))
        ["dest"] ⟨⟨[], []⟩, ⟨0, 0, 0⟩, 0, []⟩).1.fs,
        ⟨0, 0, 0⟩, 9, []⟩).1.stats.downloaded = 2 ∧
    (downloadDirectory ["tmp"]
      (.ok (.cons (.mk "a.txt" "file" .fail (some (some "A")))
        (.cons (.mk "sub" "dir"
          (.ok (.cons (.mk "b.txt" "file" .fail (some (some "B"))) .nil)) none)
        .nil)))
      ["dest"]
      ⟨(downloadDirectory ["tmp"]
        (.ok (.cons (.mk "a.txt" "file" .fail (some (some "A")))
          (.cons (.mk "sub" "dir"
            (.ok (.cons (.mk "b.txt" "file" .fail (some (some "B"))) .nil)) none)
          .nil)))
        ["dest"] ⟨⟨[], []⟩, ⟨0, 0, 0⟩, 0, []⟩).1.fs,
        ⟨0, 0, 0⟩, 9, []⟩).1.stats.moved = 2 :=
  claim_C7_rerun_displaces_everything ["tmp"] ["dest"]
    (.ok (.cons (.mk "a.txt" "file" .fail (some (some "A")))
      (.cons (.mk "sub" "dir"
        (.ok (.cons (.mk "b.txt" "file" .fail (some (some "B"))) .nil)) none)
      .nil)))
    ⟨[], []⟩ 0 9 (by decide) (by decide) (by decide) (by decide)

end GetRules
